import Mathlib

/-!
Verification of the hospital management system (`src/hms.c`).

The C program keeps four fixed-capacity global tables (patients, diseases,
doctors, appointments) together with per-table counts and monotonic next-id
counters.  We embed the data-management core shallowly:

* each C struct becomes a Lean structure (C `char[n]` buffers hold
  NUL-terminated strings, embedded as the `String`/`List Char` of their
  content; entry points truncate to the buffer capacity exactly as the
  C `strncpy`/`fgets` calls do);
* each global table together with its count becomes a `List` (the count is
  the list length — in the C program the count always equals the number of
  live records);
* every fallible menu operation becomes a pure function
  `HMS → inputs → HMS × HmsResult`, where `HmsResult` has one constructor
  per distinct outcome/diagnostic path of the C function;
* the interaction shell (prompts, confirmation dialogs, screen clearing) is
  outside the embedded core, as in the specification: operations receive the
  already-read input values, and the `y/n` confirmation of the delete/cancel
  dialogs is the shell's, so the embedded operation is the confirmed one.
-/

/-! ### Case-insensitive comparison (`stricmp_custom`, hms.c lines 156-164) -/

/-- The value `tolower((unsigned char) c)` of the C locale: ASCII letters
`A`-`Z` (codes 65-90) map to their lowercase forms (+32), every other
character is returned unchanged.  We work with the integer character value,
since `stricmp_custom` computes integer differences of such values. -/
def toLowerAscii (c : Char) : Int :=
  if 65 ≤ c.toNat ∧ c.toNat ≤ 90 then (c.toNat : Int) + 32 else (c.toNat : Int)

/-- Embedding of `stricmp_custom` (hms.c lines 156-164) on the character
lists of the two NUL-terminated C strings.  The C loop runs while both
strings have characters left and returns `tolower(*a) - tolower(*b)` at the
first difference or when either string ends (the terminating NUL folds to
the character value 0). -/
def stricmp_custom : List Char → List Char → Int
  | [], [] => 0
  | [], b :: _ => 0 - toLowerAscii b
  | a :: _, [] => toLowerAscii a - 0
  | a :: as, b :: bs =>
    if toLowerAscii a = toLowerAscii b then stricmp_custom as bs
    else toLowerAscii a - toLowerAscii b

/-- The same comparison loop on already-folded integer character values;
`stricmp_custom` factors through it (see `stricmp_eq_lexCmp`). -/
def lexCmp : List Int → List Int → Int
  | [], [] => 0
  | [], b :: _ => 0 - b
  | a :: _, [] => a - 0
  | a :: as, b :: bs => if a = b then lexCmp as bs else a - b

/-- The character fold applied pointwise to a whole string. -/
def foldName (l : List Char) : List Int := l.map toLowerAscii

/-- A C string cannot contain the NUL character; the character lists that
embed reachable strings satisfy this predicate. -/
def nulFree (l : List Char) : Prop := ∀ c ∈ l, c.toNat ≠ 0

instance (l : List Char) : Decidable (nulFree l) :=
  inferInstanceAs (Decidable (∀ c ∈ l, c.toNat ≠ 0))

theorem stricmp_eq_lexCmp (a b : List Char) :
    stricmp_custom a b = lexCmp (foldName a) (foldName b) := by
  induction a generalizing b with
  | nil => cases b <;> simp [stricmp_custom, lexCmp, foldName]
  | cons x xs ih =>
    cases b with
    | nil => simp [stricmp_custom, lexCmp, foldName]
    | cons y ys =>
      simp only [stricmp_custom, foldName, List.map_cons, lexCmp]
      split <;> simp_all [foldName]

theorem toLowerAscii_nonneg (c : Char) : 0 ≤ toLowerAscii c := by
  unfold toLowerAscii; split <;> positivity

theorem toLowerAscii_pos {c : Char} (h : c.toNat ≠ 0) : 0 < toLowerAscii c := by
  unfold toLowerAscii; split <;> omega

theorem lexCmp_neg (x y : List Int) : lexCmp y x = - lexCmp x y := by
  induction x generalizing y with
  | nil => cases y <;> simp [lexCmp]
  | cons a as ih =>
    cases y with
    | nil => simp [lexCmp]
    | cons b bs =>
      simp only [lexCmp]
      by_cases hab : a = b
      · subst hab
        simp [ih]
      · rw [if_neg hab, if_neg (fun h => hab h.symm)]
        omega

theorem lexCmp_self (x : List Int) : lexCmp x x = 0 := by
  induction x with
  | nil => rfl
  | cons a as ih => simp [lexCmp, ih]

/-- On positive-valued lists (i.e. folded NUL-free strings) the comparison
is zero exactly on equal lists. -/
theorem lexCmp_eq_zero_iff {x y : List Int}
    (hx : ∀ v ∈ x, 0 < v) (hy : ∀ v ∈ y, 0 < v) :
    lexCmp x y = 0 ↔ x = y := by
  induction x generalizing y with
  | nil =>
    cases y with
    | nil => simp [lexCmp]
    | cons b bs =>
      have hb := hy b (by simp)
      simp only [lexCmp]
      constructor
      · intro h; omega
      · intro h; exact absurd h (by simp)
  | cons a as ih =>
    cases y with
    | nil =>
      have ha := hx a (by simp)
      simp only [lexCmp]
      constructor
      · intro h; omega
      · intro h; exact absurd h (by simp)
    | cons b bs =>
      simp only [lexCmp]
      split
      · rename_i hab
        subst hab
        rw [ih (fun v hv => hx v (List.mem_cons_of_mem _ hv))
          (fun v hv => hy v (List.mem_cons_of_mem _ hv))]
        simp
      · rename_i hab
        constructor
        · intro h; omega
        · intro h
          injection h with h1 h2
          exact absurd h1 hab

/-- Transitivity of `lexCmp · · ≤ 0` on positive-valued lists. -/
theorem lexCmp_trans {x y z : List Int}
    (hx : ∀ v ∈ x, 0 < v) (hy : ∀ v ∈ y, 0 < v) (hz : ∀ v ∈ z, 0 < v)
    (h1 : lexCmp x y ≤ 0) (h2 : lexCmp y z ≤ 0) : lexCmp x z ≤ 0 := by
  induction x generalizing y z with
  | nil =>
    cases z with
    | nil => simp [lexCmp]
    | cons c cs =>
      have hc := hz c (by simp)
      simp only [lexCmp]; omega
  | cons a as ih =>
    cases y with
    | nil =>
      have ha := hx a (by simp)
      simp only [lexCmp] at h1
      omega
    | cons b bs =>
      cases z with
      | nil =>
        have hb := hy b (by simp)
        simp only [lexCmp] at h2
        omega
      | cons c cs =>
        simp only [lexCmp] at h1 h2 ⊢
        by_cases hab : a = b <;> by_cases hbc : b = c
        · subst hab; subst hbc
          simp only [if_pos rfl] at h1 h2 ⊢
          exact ih (fun v hv => hx v (List.mem_cons_of_mem _ hv))
            (fun v hv => hy v (List.mem_cons_of_mem _ hv))
            (fun v hv => hz v (List.mem_cons_of_mem _ hv)) h1 h2
        · subst hab
          rw [if_pos rfl] at h1
          rw [if_neg hbc] at h2 ⊢
          omega
        · subst hbc
          rw [if_neg hab] at h1 ⊢
          rw [if_pos rfl] at h2
          omega
        · rw [if_neg hab] at h1
          rw [if_neg hbc] at h2
          have hac : a ≠ c := by omega
          rw [if_neg hac]
          omega

/-- Totality of `lexCmp · · ≤ 0`. -/
theorem lexCmp_total (x y : List Int) : lexCmp x y ≤ 0 ∨ lexCmp y x ≤ 0 := by
  rcases le_or_lt (lexCmp x y) 0 with h | h
  · exact Or.inl h
  · right; rw [lexCmp_neg]; omega

theorem foldName_pos {l : List Char} (h : nulFree l) :
    ∀ v ∈ foldName l, 0 < v := by
  intro v hv
  simp only [foldName, List.mem_map] at hv
  obtain ⟨c, hc, rfl⟩ := hv
  exact toLowerAscii_pos (h c hc)

/-! ### Data model (hms.c lines 43-90)

Each C struct becomes a structure; the fixed `char[n]` buffers hold
NUL-terminated strings whose content we embed as a `String` (the entry
points truncate to `n - 1` characters, mirroring the `strncpy`/`fgets`
bounds).  Integers are C `int`s; within the capacity bounds enforced by the
operations every counter and id stays far below `2^31`, so plain `Int` is
an exact model and no modular reduction is needed. -/

structure Patient where
  id : Int
  name : String
  age : Int
  gender : String
  phone : String
  disease : String
  doctorId : Int
deriving DecidableEq, Inhabited

structure Disease where
  id : Int
  name : String
  symptoms : String
  treatment : String
deriving DecidableEq, Inhabited

structure Doctor where
  id : Int
  name : String
  specialization : String
  phone : String
deriving DecidableEq, Inhabited

structure Appointment where
  id : Int
  patientId : Int
  doctorId : Int
  date : String
  time : String
deriving DecidableEq, Inhabited

/-- The whole mutable global state of hms.c: the four tables (a table's
count is its list's length) and the four next-id counters. -/
structure HMS where
  patients : List Patient
  diseases : List Disease
  doctors : List Doctor
  appointments : List Appointment
  nextPatientId : Int
  nextDiseaseId : Int
  nextDoctorId : Int
  nextAppointmentId : Int
deriving DecidableEq, Inhabited

def MAX_PATIENTS : Nat := 500
def MAX_DISEASES : Nat := 200
def MAX_DOCTORS : Nat := 100
def MAX_APPOINTS : Nat := 1000

/-- The initial state of the globals (hms.c lines 82-90): empty tables,
all next-id counters 1. -/
def initHMS : HMS := ⟨[], [], [], [], 1, 1, 1, 1⟩

/-- Outcome of an operation; one constructor per distinct diagnostic path
of the C functions. -/
inductive HmsResult where
  /-- The operation succeeded; adds report the new record's id, a
  delete/cancel reports the removed id, the sort reports 0. -/
  | ok (id : Int)
  /-- A `Max ... reached.` message: the table is at capacity. -/
  | capacityExceeded
  /-- The `Need at least one patient and one doctor to schedule.` guard of
  `addAppointment`. -/
  | needPatientAndDoctor
  /-- The `Invalid patient or doctor ID.` message of `addAppointment`. -/
  | invalidReference
  /-- The `Invalid ID.` guard of `deletePatient`/`cancelAppointment` for a
  non-positive id. -/
  | invalidId
  /-- A `No ... found with ID ...` message: the id lookup failed. -/
  | notFound
  /-- The `Not enough patients to sort.` message of `sortPatientsByName`. -/
  | insufficient
deriving DecidableEq

/-! ### Finder functions (hms.c lines 167-195) -/

/-- `findPatientIndex` (hms.c lines 167-172): index of the first patient
with the given id, linear scan. -/
def findPatientIndex (l : List Patient) (id : Int) : Option Nat :=
  l.findIdx? (fun p => p.id = id)

/-- `findDoctorIndex` (hms.c lines 174-179). -/
def findDoctorIndex (l : List Doctor) (id : Int) : Option Nat :=
  l.findIdx? (fun d => d.id = id)

/-- `findAppointmentIndex` (hms.c lines 181-186). -/
def findAppointmentIndex (l : List Appointment) (id : Int) : Option Nat :=
  l.findIdx? (fun a => a.id = id)

/-- `getPatientName` (hms.c lines 189-195): the name of the patient found
by `findPatientIndex`, or `"Unknown"` when the id resolves to no patient.
Used by `cancelAppointment` and (inline, same pattern) by
`displayAppointments` (hms.c lines 575-591). -/
def getPatientName (s : HMS) (id : Int) : String :=
  match findPatientIndex s.patients id with
  | some i => (s.patients.getD i default).name
  | none => "Unknown"

/-- Truncation of an entered string to a fixed buffer capacity of `n`
content characters, as performed by the `strncpy(dst, src, n)`+NUL or
`fgets(dst, n + 1, stdin)` calls of the C entry points. -/
def trunc (n : Nat) (s : String) : String := ⟨s.data.take n⟩

/-! ### Entity store operations -/

/-- `addPatient` (hms.c lines 303-355).  Capacity check first; the new
record takes id `nextPatientId` (post-increment).  The doctor assignment of
the intake dialog: when at least one doctor exists the entered `docId` is
adopted only if it is non-zero and resolves via `findDoctorIndex`,
otherwise (including when no doctors exist, in which case the dialog is
skipped) `doctorId` is 0. -/
def addPatient (s : HMS) (name : String) (age : Int)
    (gender phone disease : String) (docId : Int) : HMS × HmsResult :=
  if s.patients.length ≥ MAX_PATIENTS then (s, .capacityExceeded)
  else
    let pid := s.nextPatientId
    let assignedDoc : Int :=
      if s.doctors.length > 0 then
        if docId ≠ 0 ∧ (findDoctorIndex s.doctors docId).isSome then docId
        else 0
      else 0
    let p : Patient :=
      ⟨pid, trunc 99 name, age, trunc 9 gender, trunc 19 phone,
        trunc 99 disease, assignedDoc⟩
    ({ s with patients := s.patients ++ [p],
              nextPatientId := s.nextPatientId + 1 }, .ok pid)

/-- `addDoctor` (hms.c lines 271-294). -/
def addDoctor (s : HMS) (name spec phone : String) : HMS × HmsResult :=
  if s.doctors.length ≥ MAX_DOCTORS then (s, .capacityExceeded)
  else
    let did := s.nextDoctorId
    let d : Doctor := ⟨did, trunc 99 name, trunc 99 spec, trunc 19 phone⟩
    ({ s with doctors := s.doctors ++ [d],
              nextDoctorId := s.nextDoctorId + 1 }, .ok did)

/-- `addDisease` (hms.c lines 479-502). -/
def addDisease (s : HMS) (name symptoms treatment : String) : HMS × HmsResult :=
  if s.diseases.length ≥ MAX_DISEASES then (s, .capacityExceeded)
  else
    let did := s.nextDiseaseId
    let d : Disease :=
      ⟨did, trunc 99 name, trunc 199 symptoms, trunc 199 treatment⟩
    ({ s with diseases := s.diseases ++ [d],
              nextDiseaseId := s.nextDiseaseId + 1 }, .ok did)

/-- `addAppointment` (hms.c lines 520-566).  Checks, in this order: the
capacity bound, the at-least-one-patient-and-doctor guard, then resolution
of both entered ids.  On success the record takes id `nextAppointmentId`
(post-increment) and is appended; then, if the referenced patient's
`doctorId` is 0, that patient's `doctorId` is set to the appointment's
doctor (the `--- FIX ---` block, lines 555-562). -/
def addAppointment (s : HMS) (pid did : Int) (date time : String) :
    HMS × HmsResult :=
  if s.appointments.length ≥ MAX_APPOINTS then (s, .capacityExceeded)
  else if s.patients.length = 0 ∨ s.doctors.length = 0 then
    (s, .needPatientAndDoctor)
  else
    match findPatientIndex s.patients pid, findDoctorIndex s.doctors did with
    | some pi, some _ =>
      let aid := s.nextAppointmentId
      let a : Appointment := ⟨aid, pid, did, trunc 19 date, trunc 9 time⟩
      let ps :=
        match s.patients[pi]? with
        | some p =>
          if p.doctorId = 0 then s.patients.set pi { p with doctorId := did }
          else s.patients
        | none => s.patients
      ({ s with appointments := s.appointments ++ [a],
                patients := ps,
                nextAppointmentId := s.nextAppointmentId + 1 }, .ok aid)
    | _, _ => (s, .invalidReference)

/-- `deletePatient` (hms.c lines 434-456).  A non-positive id is rejected
by the `id <= 0` guard; an unresolved id reports not-found; otherwise the
record at the found index is removed by the shift-left loop (the `y/n`
confirmation dialog belongs to the interaction shell; the embedded
operation is the confirmed delete). -/
def deletePatient (s : HMS) (id : Int) : HMS × HmsResult :=
  if id ≤ 0 then (s, .invalidId)
  else
    match findPatientIndex s.patients id with
    | some i => ({ s with patients := s.patients.eraseIdx i }, .ok id)
    | none => (s, .notFound)

/-- `cancelAppointment` (hms.c lines 594-616), same structure as
`deletePatient` on the appointment table. -/
def cancelAppointment (s : HMS) (id : Int) : HMS × HmsResult :=
  if id ≤ 0 then (s, .invalidId)
  else
    match findAppointmentIndex s.appointments id with
    | some i => ({ s with appointments := s.appointments.eraseIdx i }, .ok id)
    | none => (s, .notFound)

/-! ### Sort and search (hms.c lines 416-476) -/

/-- The comparator `comparePatientsByName` (hms.c lines 459-463) as the
order it induces: `a` precedes `b` when `stricmp_custom` on the names is
non-positive. -/
def patientLe (a b : Patient) : Prop :=
  stricmp_custom a.name.data b.name.data ≤ 0

instance : DecidableRel patientLe := fun a b =>
  Int.decLe (stricmp_custom a.name.data b.name.data) 0

/-- `sortPatientsByName` (hms.c lines 465-476): below two patients the
operation reports insufficient input and changes nothing; otherwise the
patient table is reordered by `qsort` with `comparePatientsByName`.  The C
standard specifies `qsort` only up to "sorted according to the comparator";
we embed it as insertion sort with the same comparator, which realises that
contract. -/
def sortPatientsByName (s : HMS) : HMS × HmsResult :=
  if s.patients.length < 2 then (s, .insufficient)
  else ({ s with patients := List.insertionSort patientLe s.patients }, .ok 0)

/-- `searchPatientByName` (hms.c lines 416-432): all patients whose name
compares equal to the query under `stricmp_custom`, in table order; the
table itself is not touched. -/
def searchPatientByName (s : HMS) (query : String) : List Patient :=
  s.patients.filter (fun p => stricmp_custom p.name.data query.data = 0)

/-! ### Persistence (hms.c lines 200-254)

`saveData` writes, in fixed order, the four counts, the four next-id
counters, then the live records of each table; `loadData` reads them back
in the same order.  We embed the save file as the sequence of fields
written, one token per C `int` field and one per string buffer (a record's
fixed-layout struct is its fields in declaration order; round-tripping a
string through the fixed-size buffer is exact for the live records, whose
strings were truncated to the buffer size on entry). -/

inductive Tok where
  | i (n : Int)
  | str (v : String)
deriving DecidableEq

def serializePatient (p : Patient) : List Tok :=
  [.i p.id, .str p.name, .i p.age, .str p.gender, .str p.phone,
    .str p.disease, .i p.doctorId]

def serializeDisease (d : Disease) : List Tok :=
  [.i d.id, .str d.name, .str d.symptoms, .str d.treatment]

def serializeDoctor (d : Doctor) : List Tok :=
  [.i d.id, .str d.name, .str d.specialization, .str d.phone]

def serializeAppointment (a : Appointment) : List Tok :=
  [.i a.id, .i a.patientId, .i a.doctorId, .str a.date, .str a.time]

def parsePatient : List Tok → Option (Patient × List Tok)
  | .i id :: .str name :: .i age :: .str gender :: .str phone ::
      .str disease :: .i doctorId :: rest =>
    some (⟨id, name, age, gender, phone, disease, doctorId⟩, rest)
  | _ => none

def parseDisease : List Tok → Option (Disease × List Tok)
  | .i id :: .str name :: .str symptoms :: .str treatment :: rest =>
    some (⟨id, name, symptoms, treatment⟩, rest)
  | _ => none

def parseDoctor : List Tok → Option (Doctor × List Tok)
  | .i id :: .str name :: .str specialization :: .str phone :: rest =>
    some (⟨id, name, specialization, phone⟩, rest)
  | _ => none

def parseAppointment : List Tok → Option (Appointment × List Tok)
  | .i id :: .i patientId :: .i doctorId :: .str date :: .str time :: rest =>
    some (⟨id, patientId, doctorId, date, time⟩, rest)
  | _ => none

/-- Read `n` consecutive records, as the `fread(table, sizeof(...), count, fp)`
calls of `loadData` do. -/
def parseMany {α : Type} (f : List Tok → Option (α × List Tok)) :
    Nat → List Tok → Option (List α × List Tok)
  | 0, ts => some ([], ts)
  | n + 1, ts =>
    match f ts with
    | some (a, ts1) =>
      match parseMany f n ts1 with
      | some (as, ts2) => some (a :: as, ts2)
      | none => none
    | none => none

/-- `saveData` (hms.c lines 200-224): the four counts, the four next-id
counters, then the live portion of each table, in that fixed order. -/
def saveData (s : HMS) : List Tok :=
  [.i (s.patients.length : Int), .i (s.diseases.length : Int),
    .i (s.doctors.length : Int), .i (s.appointments.length : Int),
    .i s.nextPatientId, .i s.nextDiseaseId, .i s.nextDoctorId,
    .i s.nextAppointmentId]
  ++ (s.patients.map serializePatient).flatten
  ++ (s.diseases.map serializeDisease).flatten
  ++ (s.doctors.map serializeDoctor).flatten
  ++ (s.appointments.map serializeAppointment).flatten

/-- `loadData` (hms.c lines 226-254): read the same eight integers in the
same order, then exactly `count` records into each table.  A file too short
or of the wrong shape fails (`none`); the C code's `if (count > 0)` guard
means a non-positive stored count reads no records, hence `Int.toNat`.
Tokens after the appointment records are ignored, as `loadData` reads only
what it needs. -/
def loadData (ts : List Tok) : Option HMS :=
  match ts with
  | .i pc :: .i dc :: .i doc :: .i ac :: .i npid :: .i ndid :: .i ndocid ::
      .i naid :: rest =>
    match parseMany parsePatient pc.toNat rest with
    | some (ps, r1) =>
      match parseMany parseDisease dc.toNat r1 with
      | some (ds, r2) =>
        match parseMany parseDoctor doc.toNat r2 with
        | some (docs, r3) =>
          match parseMany parseAppointment ac.toNat r3 with
          | some (apps, _) =>
            some ⟨ps, ds, docs, apps, npid, ndid, ndocid, naid⟩
          | none => none
        | none => none
      | none => none
    | none => none
  | _ => none

theorem parseMany_serialize {α : Type} {f : List Tok → Option (α × List Tok)}
    {g : α → List Tok}
    (hfg : ∀ (a : α) (rest : List Tok), f (g a ++ rest) = some (a, rest)) :
    ∀ (l : List α) (rest : List Tok),
      parseMany f l.length ((l.map g).flatten ++ rest) = some (l, rest) := by
  intro l
  induction l with
  | nil => intro rest; simp [parseMany]
  | cons a l ih =>
    intro rest
    simp only [List.map_cons, List.flatten_cons, List.length_cons,
      List.append_assoc]
    rw [parseMany, hfg a ((l.map g).flatten ++ rest)]
    simp only [ih rest]

theorem parsePatient_serializePatient (p : Patient) (rest : List Tok) :
    parsePatient (serializePatient p ++ rest) = some (p, rest) := rfl

theorem parseDisease_serializeDisease (d : Disease) (rest : List Tok) :
    parseDisease (serializeDisease d ++ rest) = some (d, rest) := rfl

theorem parseDoctor_serializeDoctor (d : Doctor) (rest : List Tok) :
    parseDoctor (serializeDoctor d ++ rest) = some (d, rest) := rfl

theorem parseAppointment_serializeAppointment (a : Appointment)
    (rest : List Tok) :
    parseAppointment (serializeAppointment a ++ rest) = some (a, rest) := rfl

/-- C2: loading the byte sequence produced by saving a state yields that
state back: every count (the table lengths), every next-id counter, and
every field of every live record is identical after the save-then-load
round trip. -/
theorem C2_save_load_roundtrip (s : HMS) : loadData (saveData s) = some s := by
  obtain ⟨ps, ds, docs, apps, na, nb, nc, nd⟩ := s
  simp only [saveData, List.cons_append, List.nil_append, List.append_assoc]
  simp only [loadData, Int.toNat_natCast,
    parseMany_serialize parsePatient_serializePatient ps,
    parseMany_serialize parseDisease_serializeDisease ds,
    parseMany_serialize parseDoctor_serializeDoctor docs]
  rw [show (List.map serializeAppointment apps).flatten =
      (List.map serializeAppointment apps).flatten ++ [] from
      (List.append_nil _).symm,
    parseMany_serialize parseAppointment_serializeAppointment apps]

/-! ### Operation sequences (the menu loop, hms.c lines 652-690)

For the identifier-assignment property we run arbitrary sequences of the
state-mutating menu operations. -/

inductive Op where
  | opAddPatient (name : String) (age : Int) (gender phone disease : String)
      (docId : Int)
  | opAddDoctor (name spec phone : String)
  | opAddDisease (name symptoms treatment : String)
  | opAddAppointment (pid did : Int) (date time : String)
  | opDeletePatient (id : Int)
  | opCancelAppointment (id : Int)
  | opSortPatients
deriving DecidableEq

def step (s : HMS) : Op → HMS × HmsResult
  | .opAddPatient name age gender phone disease docId =>
    addPatient s name age gender phone disease docId
  | .opAddDoctor name spec phone => addDoctor s name spec phone
  | .opAddDisease name symptoms treatment => addDisease s name symptoms treatment
  | .opAddAppointment pid did date time => addAppointment s pid did date time
  | .opDeletePatient id => deletePatient s id
  | .opCancelAppointment id => cancelAppointment s id
  | .opSortPatients => sortPatientsByName s

def Op.isAddPatient : Op → Bool
  | .opAddPatient _ _ _ _ _ _ => true
  | _ => false

def Op.isAddDoctor : Op → Bool
  | .opAddDoctor _ _ _ => true
  | _ => false

def Op.isAddDisease : Op → Bool
  | .opAddDisease _ _ _ => true
  | _ => false

def Op.isAddAppointment : Op → Bool
  | .opAddAppointment _ _ _ _ => true
  | _ => false

/-- The ids reported by the successful operations selected by `select`
along a run of `ops` from state `s`, in order. -/
def assignedIds (select : Op → Bool) : HMS → List Op → List Int
  | _, [] => []
  | s, op :: rest =>
    match (step s op).2 with
    | .ok i =>
      if select op then i :: assignedIds select (step s op).1 rest
      else assignedIds select (step s op).1 rest
    | _ => assignedIds select (step s op).1 rest

/-- Generic monotone-counter lemma: if each step either is a selected
operation that succeeds reporting the current counter value and increments
the counter by one, or keeps the counter unchanged while no selected
operation succeeds, then the ids handed out along any run from `s` are
`proj s, proj s + 1, proj s + 2, ...`. -/
theorem assignedIds_get (select : Op → Bool) (proj : HMS → Int)
    (hstep : ∀ s op,
      (select op = true ∧ (step s op).2 = .ok (proj s) ∧
        proj (step s op).1 = proj s + 1) ∨
      (proj (step s op).1 = proj s ∧
        (select op = true → ∀ i, (step s op).2 ≠ .ok i))) :
    ∀ (ops : List Op) (s : HMS) (n : Nat)
      (h : n < (assignedIds select s ops).length),
      (assignedIds select s ops)[n] = proj s + (n : Int) := by
  intro ops
  induction ops with
  | nil =>
    intro s n h
    simp [assignedIds] at h
  | cons op rest ih =>
    intro s n h
    rcases hstep s op with ⟨hsel, hok, hinc⟩ | ⟨hkeep, hnot⟩
    · have hhead : assignedIds select s (op :: rest) =
          proj s :: assignedIds select (step s op).1 rest := by
        rw [assignedIds, hok]
        simp [hsel]
      cases n with
      | zero => simp [hhead]
      | succ m =>
        have hm : m < (assignedIds select (step s op).1 rest).length := by
          rw [hhead] at h
          simpa using h
        have hval := ih (step s op).1 m hm
        rw [hinc] at hval
        simp only [hhead, List.getElem_cons_succ, hval]
        push_cast
        ring
    · have htail : assignedIds select s (op :: rest) =
          assignedIds select (step s op).1 rest := by
        rw [assignedIds]
        cases hres : (step s op).2 with
        | ok i =>
          cases hs : select op with
          | false => simp
          | true => exact absurd hres (hnot hs i)
        | capacityExceeded => rfl
        | needPatientAndDoctor => rfl
        | invalidReference => rfl
        | invalidId => rfl
        | notFound => rfl
        | insufficient => rfl
      have hm : n < (assignedIds select (step s op).1 rest).length := by
        rw [htail] at h
        exact h
      have hval := ih (step s op).1 n hm
      rw [hkeep] at hval
      simp only [htail]
      exact hval

theorem step_nextPatientId (s : HMS) (op : Op) :
    (Op.isAddPatient op = true ∧ (step s op).2 = .ok s.nextPatientId ∧
      (step s op).1.nextPatientId = s.nextPatientId + 1) ∨
    ((step s op).1.nextPatientId = s.nextPatientId ∧
      (Op.isAddPatient op = true → ∀ i, (step s op).2 ≠ .ok i)) := by
  cases op with
  | opAddPatient name age gender phone disease docId =>
    simp only [step, addPatient]
    split
    · exact Or.inr ⟨rfl, fun _ i h => nomatch h⟩
    · exact Or.inl ⟨rfl, rfl, rfl⟩
  | opAddDoctor name spec phone =>
    refine Or.inr ⟨?_, fun hh => nomatch hh⟩
    simp only [step, addDoctor]
    split <;> rfl
  | opAddDisease name symptoms treatment =>
    refine Or.inr ⟨?_, fun hh => nomatch hh⟩
    simp only [step, addDisease]
    split <;> rfl
  | opAddAppointment pid did date time =>
    refine Or.inr ⟨?_, fun hh => nomatch hh⟩
    simp only [step, addAppointment]
    split
    · rfl
    · split
      · rfl
      · split <;> rfl
  | opDeletePatient id =>
    refine Or.inr ⟨?_, fun hh => nomatch hh⟩
    simp only [step, deletePatient]
    split
    · rfl
    · split <;> rfl
  | opCancelAppointment id =>
    refine Or.inr ⟨?_, fun hh => nomatch hh⟩
    simp only [step, cancelAppointment]
    split
    · rfl
    · split <;> rfl
  | opSortPatients =>
    refine Or.inr ⟨?_, fun hh => nomatch hh⟩
    simp only [step, sortPatientsByName]
    split <;> rfl

theorem step_nextDoctorId (s : HMS) (op : Op) :
    (Op.isAddDoctor op = true ∧ (step s op).2 = .ok s.nextDoctorId ∧
      (step s op).1.nextDoctorId = s.nextDoctorId + 1) ∨
    ((step s op).1.nextDoctorId = s.nextDoctorId ∧
      (Op.isAddDoctor op = true → ∀ i, (step s op).2 ≠ .ok i)) := by
  cases op with
  | opAddDoctor name spec phone =>
    simp only [step, addDoctor]
    split
    · exact Or.inr ⟨rfl, fun _ i h => nomatch h⟩
    · exact Or.inl ⟨rfl, rfl, rfl⟩
  | opAddPatient name age gender phone disease docId =>
    refine Or.inr ⟨?_, fun hh => nomatch hh⟩
    simp only [step, addPatient]
    split <;> rfl
  | opAddDisease name symptoms treatment =>
    refine Or.inr ⟨?_, fun hh => nomatch hh⟩
    simp only [step, addDisease]
    split <;> rfl
  | opAddAppointment pid did date time =>
    refine Or.inr ⟨?_, fun hh => nomatch hh⟩
    simp only [step, addAppointment]
    split
    · rfl
    · split
      · rfl
      · split <;> rfl
  | opDeletePatient id =>
    refine Or.inr ⟨?_, fun hh => nomatch hh⟩
    simp only [step, deletePatient]
    split
    · rfl
    · split <;> rfl
  | opCancelAppointment id =>
    refine Or.inr ⟨?_, fun hh => nomatch hh⟩
    simp only [step, cancelAppointment]
    split
    · rfl
    · split <;> rfl
  | opSortPatients =>
    refine Or.inr ⟨?_, fun hh => nomatch hh⟩
    simp only [step, sortPatientsByName]
    split <;> rfl

theorem step_nextDiseaseId (s : HMS) (op : Op) :
    (Op.isAddDisease op = true ∧ (step s op).2 = .ok s.nextDiseaseId ∧
      (step s op).1.nextDiseaseId = s.nextDiseaseId + 1) ∨
    ((step s op).1.nextDiseaseId = s.nextDiseaseId ∧
      (Op.isAddDisease op = true → ∀ i, (step s op).2 ≠ .ok i)) := by
  cases op with
  | opAddDisease name symptoms treatment =>
    simp only [step, addDisease]
    split
    · exact Or.inr ⟨rfl, fun _ i h => nomatch h⟩
    · exact Or.inl ⟨rfl, rfl, rfl⟩
  | opAddPatient name age gender phone disease docId =>
    refine Or.inr ⟨?_, fun hh => nomatch hh⟩
    simp only [step, addPatient]
    split <;> rfl
  | opAddDoctor name spec phone =>
    refine Or.inr ⟨?_, fun hh => nomatch hh⟩
    simp only [step, addDoctor]
    split <;> rfl
  | opAddAppointment pid did date time =>
    refine Or.inr ⟨?_, fun hh => nomatch hh⟩
    simp only [step, addAppointment]
    split
    · rfl
    · split
      · rfl
      · split <;> rfl
  | opDeletePatient id =>
    refine Or.inr ⟨?_, fun hh => nomatch hh⟩
    simp only [step, deletePatient]
    split
    · rfl
    · split <;> rfl
  | opCancelAppointment id =>
    refine Or.inr ⟨?_, fun hh => nomatch hh⟩
    simp only [step, cancelAppointment]
    split
    · rfl
    · split <;> rfl
  | opSortPatients =>
    refine Or.inr ⟨?_, fun hh => nomatch hh⟩
    simp only [step, sortPatientsByName]
    split <;> rfl

theorem step_nextAppointmentId (s : HMS) (op : Op) :
    (Op.isAddAppointment op = true ∧ (step s op).2 = .ok s.nextAppointmentId ∧
      (step s op).1.nextAppointmentId = s.nextAppointmentId + 1) ∨
    ((step s op).1.nextAppointmentId = s.nextAppointmentId ∧
      (Op.isAddAppointment op = true → ∀ i, (step s op).2 ≠ .ok i)) := by
  cases op with
  | opAddAppointment pid did date time =>
    simp only [step, addAppointment]
    split
    · exact Or.inr ⟨rfl, fun _ i h => nomatch h⟩
    · split
      · exact Or.inr ⟨rfl, fun _ i h => nomatch h⟩
      · split
        · exact Or.inl ⟨rfl, rfl, rfl⟩
        · exact Or.inr ⟨rfl, fun _ i h => nomatch h⟩
  | opAddPatient name age gender phone disease docId =>
    refine Or.inr ⟨?_, fun hh => nomatch hh⟩
    simp only [step, addPatient]
    split <;> rfl
  | opAddDoctor name spec phone =>
    refine Or.inr ⟨?_, fun hh => nomatch hh⟩
    simp only [step, addDoctor]
    split <;> rfl
  | opAddDisease name symptoms treatment =>
    refine Or.inr ⟨?_, fun hh => nomatch hh⟩
    simp only [step, addDisease]
    split <;> rfl
  | opDeletePatient id =>
    refine Or.inr ⟨?_, fun hh => nomatch hh⟩
    simp only [step, deletePatient]
    split
    · rfl
    · split <;> rfl
  | opCancelAppointment id =>
    refine Or.inr ⟨?_, fun hh => nomatch hh⟩
    simp only [step, cancelAppointment]
    split
    · rfl
    · split <;> rfl
  | opSortPatients =>
    refine Or.inr ⟨?_, fun hh => nomatch hh⟩
    simp only [step, sortPatientsByName]
    split <;> rfl

/-- C3: starting from the empty database, along every operation sequence
whose successful adds of each entity type stay within that type's capacity
(so every counter stays far below the C `int` range), the id reported by
the `n`-th successful add of a given type is `n + 1` counting from 0 —
that is, ids start at 1 and increment by exactly 1 per successful add of
that type, unaffected by interleaved deletes, sorts, or adds of the other
entity types. -/
theorem C3_id_assignment (ops : List Op)
    (hP : (assignedIds Op.isAddPatient initHMS ops).length ≤ MAX_PATIENTS)
    (hD : (assignedIds Op.isAddDisease initHMS ops).length ≤ MAX_DISEASES)
    (hDoc : (assignedIds Op.isAddDoctor initHMS ops).length ≤ MAX_DOCTORS)
    (hA : (assignedIds Op.isAddAppointment initHMS ops).length ≤ MAX_APPOINTS) :
    (∀ (n : Nat) (h : n < (assignedIds Op.isAddPatient initHMS ops).length),
        (assignedIds Op.isAddPatient initHMS ops)[n] = (n : Int) + 1) ∧
    (∀ (n : Nat) (h : n < (assignedIds Op.isAddDisease initHMS ops).length),
        (assignedIds Op.isAddDisease initHMS ops)[n] = (n : Int) + 1) ∧
    (∀ (n : Nat) (h : n < (assignedIds Op.isAddDoctor initHMS ops).length),
        (assignedIds Op.isAddDoctor initHMS ops)[n] = (n : Int) + 1) ∧
    (∀ (n : Nat) (h : n < (assignedIds Op.isAddAppointment initHMS ops).length),
        (assignedIds Op.isAddAppointment initHMS ops)[n] = (n : Int) + 1) := by
  refine ⟨fun n h => ?_, fun n h => ?_, fun n h => ?_, fun n h => ?_⟩
  · rw [assignedIds_get Op.isAddPatient (fun st => st.nextPatientId)
      step_nextPatientId ops initHMS n h]
    show (1 : Int) + n = n + 1
    ring
  · rw [assignedIds_get Op.isAddDisease (fun st => st.nextDiseaseId)
      step_nextDiseaseId ops initHMS n h]
    show (1 : Int) + n = n + 1
    ring
  · rw [assignedIds_get Op.isAddDoctor (fun st => st.nextDoctorId)
      step_nextDoctorId ops initHMS n h]
    show (1 : Int) + n = n + 1
    ring
  · rw [assignedIds_get Op.isAddAppointment (fun st => st.nextAppointmentId)
      step_nextAppointmentId ops initHMS n h]
    show (1 : Int) + n = n + 1
    ring

/-- A sample session: register a doctor, admit a patient, record a disease,
schedule an appointment, delete the patient, admit another patient (which
must get the never-reused id 2), schedule a second appointment. -/
def opsEx : List Op :=
  [.opAddDoctor "Dr. Smith" "cardiology" "123",
   .opAddPatient "Alice" 30 "f" "555" "flu" 1,
   .opAddDisease "Flu" "fever" "rest",
   .opAddAppointment 1 1 "2024-01-01" "10:00",
   .opDeletePatient 1,
   .opAddPatient "Bob" 40 "m" "556" "cold" 0,
   .opAddAppointment 2 1 "2024-01-02" "11:00"]

theorem C3_id_assignment_witness :
    (assignedIds Op.isAddPatient initHMS opsEx).get ⟨1, by decide⟩ = 2 ∧
    (assignedIds Op.isAddDisease initHMS opsEx).get ⟨0, by decide⟩ = 1 ∧
    (assignedIds Op.isAddDoctor initHMS opsEx).get ⟨0, by decide⟩ = 1 ∧
    (assignedIds Op.isAddAppointment initHMS opsEx).get ⟨1, by decide⟩ = 2 := by
  have h := C3_id_assignment opsEx (by decide) (by decide) (by decide)
    (by decide)
  refine ⟨?_, ?_, ?_, ?_⟩
  · have := h.1 1 (by decide)
    simpa using this
  · have := h.2.1 0 (by decide)
    simpa using this
  · have := h.2.2.1 0 (by decide)
    simpa using this
  · have := h.2.2.2 1 (by decide)
    simpa using this

theorem findPatientIndex_lt {l : List Patient} {id : Int} {i : Nat}
    (h : findPatientIndex l id = some i) : i < l.length := by
  have := List.findIdx?_eq_some_iff_findIdx_eq.mp h
  exact this.1

theorem findDoctorIndex_lt {l : List Doctor} {id : Int} {i : Nat}
    (h : findDoctorIndex l id = some i) : i < l.length := by
  have := List.findIdx?_eq_some_iff_findIdx_eq.mp h
  exact this.1

theorem findAppointmentIndex_lt {l : List Appointment} {id : Int} {i : Nat}
    (h : findAppointmentIndex l id = some i) : i < l.length := by
  have := List.findIdx?_eq_some_iff_findIdx_eq.mp h
  exact this.1

/-- C1: when an appointment creation succeeds (the patient id and doctor id
both resolve and the appointment table is below capacity), a patient whose
`doctorId` was 0 beforehand ends with `doctorId` equal to the appointment's
doctor, and a patient whose `doctorId` was non-zero keeps it unchanged,
whatever doctor the appointment names. -/
theorem C1_auto_assign_primary_doctor (s : HMS) (pid did : Int)
    (date time : String) (pi : Nat) (p : Patient)
    (hcap : s.appointments.length < MAX_APPOINTS)
    (hp : findPatientIndex s.patients pid = some pi)
    (hd : (findDoctorIndex s.doctors did).isSome = true)
    (hpe : s.patients[pi]? = some p) :
    (addAppointment s pid did date time).2 = .ok s.nextAppointmentId ∧
    ((addAppointment s pid did date time).1.appointments.getLast?).map
        (fun a => a.doctorId) = some did ∧
    (p.doctorId = 0 →
      (addAppointment s pid did date time).1.patients[pi]? =
        some { p with doctorId := did }) ∧
    (p.doctorId ≠ 0 →
      (addAppointment s pid did date time).1.patients[pi]? = some p) := by
  obtain ⟨di, hdi⟩ := Option.isSome_iff_exists.mp hd
  have hplt : pi < s.patients.length := findPatientIndex_lt hp
  have hdlt : di < s.doctors.length := findDoctorIndex_lt hdi
  have hc1 : ¬(s.appointments.length ≥ MAX_APPOINTS) := not_le.mpr hcap
  have hc2 : ¬(s.patients.length = 0 ∨ s.doctors.length = 0) := by
    push_neg
    omega
  simp only [addAppointment, hc1, if_false, hc2, hp, hdi, hpe]
  refine ⟨by trivial, by simp [List.getLast?_concat], fun h0 => ?_, fun h0 => ?_⟩
  · simp only [if_pos h0]
    exact List.getElem?_set_self hplt
  · simp only [if_neg h0]
    exact hpe

/-- A small concrete state: patient 1 has no primary doctor, patient 2 has
(dangling) primary doctor 9; one doctor with id 1 exists. -/
def exC1 : HMS :=
  ⟨[⟨1, "A", 30, "f", "5", "flu", 0⟩, ⟨2, "B", 40, "m", "6", "cold", 9⟩],
    [], [⟨1, "Dr", "gp", "7"⟩], [], 3, 1, 2, 1⟩

theorem C1_auto_assign_primary_doctor_witness :
    ((addAppointment exC1 1 1 "2024-01-01" "09:00").1.patients[0]? =
      some ⟨1, "A", 30, "f", "5", "flu", 1⟩) ∧
    ((addAppointment exC1 2 1 "2024-01-01" "09:00").1.patients[1]? =
      some ⟨2, "B", 40, "m", "6", "cold", 9⟩) := by
  constructor
  · have h := C1_auto_assign_primary_doctor exC1 1 1 "2024-01-01" "09:00" 0
      ⟨1, "A", 30, "f", "5", "flu", 0⟩ (by decide) (by decide) (by decide)
      (by decide)
    exact h.2.2.1 rfl
  · have h := C1_auto_assign_primary_doctor exC1 2 1 "2024-01-01" "09:00" 1
      ⟨2, "B", 40, "m", "6", "cold", 9⟩ (by decide) (by decide) (by decide)
      (by decide)
    exact h.2.2.2 (by decide)

/-- C6: each add operation checks its table's bound first; at the bound
(patients 500, diseases 200, doctors 100, appointments 1000) it reports
`capacityExceeded` and returns the state untouched — table contents, count
and next-id counter included; in particular a 501st patient leaves the
patient table at exactly 500 records. -/
theorem C6_capacity_no_op (s : HMS) (name : String) (age : Int)
    (gender phone disease : String) (docId : Int)
    (dname dsym dtreat docname spec docphone : String)
    (pid did : Int) (date time : String) :
    (s.patients.length = MAX_PATIENTS →
      addPatient s name age gender phone disease docId =
        (s, .capacityExceeded)) ∧
    (s.diseases.length = MAX_DISEASES →
      addDisease s dname dsym dtreat = (s, .capacityExceeded)) ∧
    (s.doctors.length = MAX_DOCTORS →
      addDoctor s docname spec docphone = (s, .capacityExceeded)) ∧
    (s.appointments.length = MAX_APPOINTS →
      addAppointment s pid did date time = (s, .capacityExceeded)) := by
  refine ⟨fun h => ?_, fun h => ?_, fun h => ?_, fun h => ?_⟩
  · rw [addPatient, if_pos (le_of_eq h.symm)]
  · rw [addDisease, if_pos (le_of_eq h.symm)]
  · rw [addDoctor, if_pos (le_of_eq h.symm)]
  · rw [addAppointment, if_pos (le_of_eq h.symm)]

/-- A state with every table exactly at its capacity bound. -/
def fullHMS : HMS :=
  ⟨List.replicate MAX_PATIENTS ⟨1, "p", 1, "g", "t", "d", 0⟩,
    List.replicate MAX_DISEASES ⟨1, "d", "s", "t"⟩,
    List.replicate MAX_DOCTORS ⟨1, "n", "s", "t"⟩,
    List.replicate MAX_APPOINTS ⟨1, 1, 1, "d", "t"⟩, 501, 201, 101, 1001⟩

theorem C6_capacity_no_op_witness :
    addPatient fullHMS "x" 1 "g" "t" "d" 0 = (fullHMS, .capacityExceeded) ∧
    addDisease fullHMS "x" "s" "t" = (fullHMS, .capacityExceeded) ∧
    addDoctor fullHMS "x" "s" "t" = (fullHMS, .capacityExceeded) ∧
    addAppointment fullHMS 1 1 "d" "t" = (fullHMS, .capacityExceeded) := by
  have h := C6_capacity_no_op fullHMS "x" 1 "g" "t" "d" 0 "x" "s" "t" "x" "s"
    "t" 1 1 "d" "t"
  exact ⟨h.1 (by simp [fullHMS]), h.2.1 (by simp [fullHMS]),
    h.2.2.1 (by simp [fullHMS]), h.2.2.2 (by simp [fullHMS])⟩

/-- C9: a patient intake that names a doctor id resolving to no doctor (in
particular when no doctors exist at all) is not rejected: the patient is
appended with the fresh id and with `doctorId` silently 0, exactly as if no
doctor had been requested. -/
theorem C9_dangling_doctor_intake (s : HMS) (name : String) (age : Int)
    (gender phone disease : String) (docId : Int)
    (hcap : s.patients.length < MAX_PATIENTS)
    (hnone : findDoctorIndex s.doctors docId = none) :
    (addPatient s name age gender phone disease docId).2 =
      .ok s.nextPatientId ∧
    (addPatient s name age gender phone disease docId).1.patients =
      s.patients ++
        [⟨s.nextPatientId, trunc 99 name, age, trunc 9 gender,
          trunc 19 phone, trunc 99 disease, 0⟩] ∧
    (addPatient s name age gender phone disease docId).1.nextPatientId =
      s.nextPatientId + 1 := by
  have hc : ¬(s.patients.length ≥ MAX_PATIENTS) := not_le.mpr hcap
  simp only [addPatient, hc, if_false, hnone, Option.isSome_none,
    Bool.false_eq_true, and_false, ite_false]
  refine ⟨by trivial, ?_, by trivial⟩
  split <;> rfl

theorem C9_dangling_doctor_intake_witness :
    (addPatient initHMS "Eve" 25 "f" "5" "flu" 3).2 = .ok 1 ∧
    (addPatient initHMS "Eve" 25 "f" "5" "flu" 3).1.patients =
      [⟨1, "Eve", 25, "f", "5", "flu", 0⟩] := by
  have h := C9_dangling_doctor_intake initHMS "Eve" 25 "f" "5" "flu" 3
    (by decide) (by decide)
  refine ⟨h.1, ?_⟩
  rw [h.2.1]
  decide

theorem getElem?_eraseIdx_split {α : Type} (l : List α) (i j : Nat)
    (hi : i < l.length) :
    (l.eraseIdx i)[j]? = if j < i then l[j]? else l[j + 1]? := by
  induction l generalizing i j with
  | nil => simp at hi
  | cons a as ih =>
    cases i with
    | zero => simp
    | succ i' =>
      cases j with
      | zero => simp
      | succ j' =>
        have hi' : i' < as.length := by simpa using hi
        simp only [List.eraseIdx_cons_succ, List.getElem?_cons_succ]
        rw [ih i' j' hi']
        by_cases hj : j' < i'
        · rw [if_pos hj, if_pos (by omega)]
        · rw [if_neg hj, if_neg (by omega)]

/-- C4 (amended): a non-positive id is rejected by the `id <= 0` guard as
invalid input — not as `notFound` — with the state unchanged; a positive
absent id reports `notFound` with the state unchanged; deleting or
cancelling a positive present id removes exactly the first record carrying
that id, shifting every subsequent record one position earlier (preserving
the relative order, ids and all field values of the remaining records) and
decrementing the count by exactly one. -/
theorem C4_delete_semantics (s : HMS) (id : Int) :
    (id ≤ 0 →
      deletePatient s id = (s, .invalidId) ∧
      cancelAppointment s id = (s, .invalidId)) ∧
    (0 < id → findPatientIndex s.patients id = none →
      deletePatient s id = (s, .notFound)) ∧
    (0 < id → findAppointmentIndex s.appointments id = none →
      cancelAppointment s id = (s, .notFound)) ∧
    (∀ i, 0 < id → findPatientIndex s.patients id = some i →
      (deletePatient s id).2 = .ok id ∧
      (∃ p, s.patients[i]? = some p ∧ p.id = id) ∧
      (deletePatient s id).1.patients.length + 1 = s.patients.length ∧
      (∀ j, (deletePatient s id).1.patients[j]? =
        if j < i then s.patients[j]? else s.patients[j + 1]?)) ∧
    (∀ i, 0 < id → findAppointmentIndex s.appointments id = some i →
      (cancelAppointment s id).2 = .ok id ∧
      (∃ a, s.appointments[i]? = some a ∧ a.id = id) ∧
      (cancelAppointment s id).1.appointments.length + 1 =
        s.appointments.length ∧
      (∀ j, (cancelAppointment s id).1.appointments[j]? =
        if j < i then s.appointments[j]? else s.appointments[j + 1]?)) := by
  refine ⟨fun h => ?_, fun h hf => ?_, fun h hf => ?_,
    fun i h hf => ?_, fun i h hf => ?_⟩
  · rw [deletePatient, if_pos h, cancelAppointment, if_pos h]
    exact ⟨rfl, rfl⟩
  · rw [deletePatient, if_neg (by omega)]
    rw [hf]
  · rw [cancelAppointment, if_neg (by omega)]
    rw [hf]
  · have hlt : i < s.patients.length := findPatientIndex_lt hf
    obtain ⟨hlt2, hpi, -⟩ := List.findIdx?_eq_some_iff_getElem.mp hf
    refine ⟨?_, ?_, ?_, fun j => ?_⟩
    · rw [deletePatient, if_neg (by omega), hf]
    · refine ⟨s.patients[i], by simp, ?_⟩
      simpa using hpi
    · rw [deletePatient, if_neg (by omega), hf]
      simp only [List.length_eraseIdx_of_lt hlt]
      omega
    · rw [deletePatient, if_neg (by omega), hf]
      exact getElem?_eraseIdx_split s.patients i j hlt
  · have hlt : i < s.appointments.length := findAppointmentIndex_lt hf
    obtain ⟨hlt2, hpi, -⟩ := List.findIdx?_eq_some_iff_getElem.mp hf
    refine ⟨?_, ?_, ?_, fun j => ?_⟩
    · rw [cancelAppointment, if_neg (by omega), hf]
    · refine ⟨s.appointments[i], by simp, ?_⟩
      simpa using hpi
    · rw [cancelAppointment, if_neg (by omega), hf]
      simp only [List.length_eraseIdx_of_lt hlt]
      omega
    · rw [cancelAppointment, if_neg (by omega), hf]
      exact getElem?_eraseIdx_split s.appointments i j hlt

/-- One patient with id 1 and one appointment with id 1. -/
def exDel : HMS :=
  ⟨[⟨1, "A", 30, "f", "5", "flu", 0⟩], [], [],
    [⟨1, 1, 1, "2024-01-01", "09:00"⟩], 2, 1, 1, 2⟩

theorem C4_delete_counterexample :
    findPatientIndex exDel.patients 0 = none ∧
    (deletePatient exDel 0).2 ≠ HmsResult.notFound ∧
    findAppointmentIndex exDel.appointments (-1) = none ∧
    (cancelAppointment exDel (-1)).2 ≠ HmsResult.notFound := by decide

theorem C4_delete_semantics_witness :
    (deletePatient exDel 1).2 = .ok 1 ∧
    (deletePatient exDel 1).1.patients.length + 1 = exDel.patients.length ∧
    deletePatient exDel 7 = (exDel, .notFound) ∧
    cancelAppointment exDel 0 = (exDel, .invalidId) := by
  have h1 := C4_delete_semantics exDel 1
  have h7 := C4_delete_semantics exDel 7
  have h0 := C4_delete_semantics exDel 0
  exact ⟨(h1.2.2.2.1 0 (by decide) (by decide)).1,
    (h1.2.2.2.1 0 (by decide) (by decide)).2.2.1,
    h7.2.1 (by decide) (by decide), (h0.1 (by decide)).2⟩

/-- C5 (amended): below the appointment-capacity bound, an appointment
naming an unresolvable patient or doctor id appends no record and leaves
the whole state (counters and patients included) unchanged; the reported
diagnostic is `invalidReference` when both tables are nonempty, and the
earlier `needPatientAndDoctor` precondition message when either table is
empty.  (At capacity the capacity check fires first — see the
counterexample.) -/
theorem C5_invalid_reference (s : HMS) (pid did : Int) (date time : String)
    (hcap : s.appointments.length < MAX_APPOINTS)
    (habs : findPatientIndex s.patients pid = none ∨
      findDoctorIndex s.doctors did = none) :
    addAppointment s pid did date time =
      (s, if s.patients.length = 0 ∨ s.doctors.length = 0 then
            .needPatientAndDoctor
          else .invalidReference) := by
  rw [addAppointment, if_neg (by omega)]
  by_cases hg : s.patients.length = 0 ∨ s.doctors.length = 0
  · rw [if_pos hg, if_pos hg]
  · rw [if_neg hg, if_neg hg]
    rcases habs with hh | hh
    · rw [hh]
    · cases hp : findPatientIndex s.patients pid <;> rw [hh]

/-- The appointment table exactly at its 1000-record bound (nothing else). -/
def fullAppts : HMS :=
  ⟨[], [], [], List.replicate MAX_APPOINTS ⟨1, 1, 1, "d", "t"⟩, 1, 1, 1, 1001⟩

theorem C5_invalid_reference_counterexample :
    (findPatientIndex fullAppts.patients 5 = none ∧
      (addAppointment fullAppts 5 1 "d" "t").2 = HmsResult.capacityExceeded ∧
      HmsResult.capacityExceeded ≠ HmsResult.invalidReference) ∧
    (findPatientIndex initHMS.patients 5 = none ∧
      (addAppointment initHMS 5 1 "d" "t").2 =
        HmsResult.needPatientAndDoctor ∧
      HmsResult.needPatientAndDoctor ≠ HmsResult.invalidReference) := by
  refine ⟨⟨rfl, ?_, by decide⟩, ⟨rfl, rfl, by decide⟩⟩
  rw [addAppointment, if_pos (by simp [fullAppts])]

theorem C5_invalid_reference_witness :
    addAppointment exC1 99 1 "d" "t" = (exC1, .invalidReference) ∧
    addAppointment initHMS 1 1 "d" "t" = (initHMS, .needPatientAndDoctor) := by
  have h1 := C5_invalid_reference exC1 99 1 "d" "t" (by decide)
    (Or.inl (by decide))
  have h2 := C5_invalid_reference initHMS 1 1 "d" "t" (by decide)
    (Or.inl (by decide))
  rw [h1, h2]
  exact ⟨rfl, rfl⟩

/-- C10: `deletePatient` touches only the patient table (appointments whose
`patientId` named the deleted patient stay behind, and the display helper
then resolves the patient name as `"Unknown"`); `cancelAppointment` touches
only the appointment table, in particular it never writes any patient's
`doctorId`. -/
theorem C10_delete_frame (s : HMS) (idp ida : Int) :
    ((deletePatient s idp).1.appointments = s.appointments ∧
      (deletePatient s idp).1.doctors = s.doctors ∧
      (deletePatient s idp).1.diseases = s.diseases ∧
      (deletePatient s idp).1.nextPatientId = s.nextPatientId ∧
      (deletePatient s idp).1.nextDiseaseId = s.nextDiseaseId ∧
      (deletePatient s idp).1.nextDoctorId = s.nextDoctorId ∧
      (deletePatient s idp).1.nextAppointmentId = s.nextAppointmentId) ∧
    ((cancelAppointment s ida).1.patients = s.patients ∧
      (cancelAppointment s ida).1.doctors = s.doctors ∧
      (cancelAppointment s ida).1.diseases = s.diseases ∧
      (cancelAppointment s ida).1.nextPatientId = s.nextPatientId ∧
      (cancelAppointment s ida).1.nextDiseaseId = s.nextDiseaseId ∧
      (cancelAppointment s ida).1.nextDoctorId = s.nextDoctorId ∧
      (cancelAppointment s ida).1.nextAppointmentId = s.nextAppointmentId) ∧
    (∀ pid, findPatientIndex s.patients pid = none →
      getPatientName s pid = "Unknown") := by
  refine ⟨?_, ?_, fun pid hnone => ?_⟩
  · rw [deletePatient]
    split
    · exact ⟨rfl, rfl, rfl, rfl, rfl, rfl, rfl⟩
    · split <;> exact ⟨rfl, rfl, rfl, rfl, rfl, rfl, rfl⟩
  · rw [cancelAppointment]
    split
    · exact ⟨rfl, rfl, rfl, rfl, rfl, rfl, rfl⟩
    · split <;> exact ⟨rfl, rfl, rfl, rfl, rfl, rfl, rfl⟩
  · rw [getPatientName, hnone]

theorem C10_delete_frame_witness :
    (deletePatient exDel 1).1.appointments = exDel.appointments ∧
    (cancelAppointment exDel 1).1.patients = exDel.patients ∧
    getPatientName (deletePatient exDel 1).1 1 = "Unknown" := by
  have h1 := C10_delete_frame exDel 1 1
  have h2 := C10_delete_frame (deletePatient exDel 1).1 1 1
  exact ⟨h1.1.1, h1.2.1.1, h2.2.2 1 (by decide)⟩

theorem stricmp_eq_zero_iff_fold {a b : List Char}
    (ha : nulFree a) (hb : nulFree b) :
    stricmp_custom a b = 0 ↔ foldName a = foldName b := by
  rw [stricmp_eq_lexCmp]
  exact lexCmp_eq_zero_iff (foldName_pos ha) (foldName_pos hb)

/-- Queries with the same character fold select the same patients. -/
theorem searchPatientByName_fold_congr (s : HMS) (q1 q2 : String)
    (h : foldName q1.data = foldName q2.data) :
    searchPatientByName s q1 = searchPatientByName s q2 := by
  unfold searchPatientByName
  apply List.filter_congr
  intro p _
  simp only [stricmp_eq_lexCmp, h]

/-- C8: `searchPatientByName` returns exactly the patients whose folded
name equals the folded query — a case-insensitive exact whole-name match,
possibly empty, in table order (the search only reads the table; it returns
a result list and the state is not part of its type).  Queries differing
only in case, such as `"john"`, `"John"` and `"JOHN"`, give identical
result lists on every state. -/
theorem C8_search_case_insensitive (s : HMS) (query : String)
    (hq : nulFree query.data)
    (hs : ∀ p ∈ s.patients, nulFree p.name.data) :
    searchPatientByName s query =
      s.patients.filter
        (fun p => foldName p.name.data = foldName query.data) ∧
    (∀ q2 : String, foldName query.data = foldName q2.data →
      searchPatientByName s query = searchPatientByName s q2) ∧
    searchPatientByName s "john" = searchPatientByName s "John" ∧
    searchPatientByName s "John" = searchPatientByName s "JOHN" := by
  refine ⟨?_, fun q2 hq2 => searchPatientByName_fold_congr s query q2 hq2,
    searchPatientByName_fold_congr s "john" "John" (by decide),
    searchPatientByName_fold_congr s "John" "JOHN" (by decide)⟩
  unfold searchPatientByName
  apply List.filter_congr
  intro p hp
  rw [decide_eq_decide]
  exact stricmp_eq_zero_iff_fold (hs p hp) hq

theorem C8_search_case_insensitive_witness :
    searchPatientByName exC1 "a" =
      exC1.patients.filter
        (fun p => foldName p.name.data = foldName "a".data) ∧
    searchPatientByName exC1 "john" = searchPatientByName exC1 "John" := by
  have h := C8_search_case_insensitive exC1 "a" (by decide) (by decide)
  exact ⟨h.1, h.2.2.1⟩

theorem patientLe_total (a b : Patient) : patientLe a b ∨ patientLe b a := by
  unfold patientLe
  rw [stricmp_eq_lexCmp, stricmp_eq_lexCmp]
  exact lexCmp_total (foldName a.name.data) (foldName b.name.data)

theorem patientLe_trans {a b c : Patient} (ha : nulFree a.name.data)
    (hb : nulFree b.name.data) (hc : nulFree c.name.data)
    (h1 : patientLe a b) (h2 : patientLe b c) : patientLe a c := by
  unfold patientLe at h1 h2 ⊢
  rw [stricmp_eq_lexCmp] at h1 h2 ⊢
  exact lexCmp_trans (foldName_pos ha) (foldName_pos hb) (foldName_pos hc)
    h1 h2

/-- `List.orderedInsert` preserves sortedness when the order is total, and
transitive on the elements involved (the comparator of hms.c is transitive
only on NUL-free names, so the usual `IsTrans` instance route is not
available). -/
theorem sorted_orderedInsert_restricted {α : Type} (r : α → α → Prop)
    [DecidableRel r] (P : α → Prop)
    (htotal : ∀ a b, r a b ∨ r b a)
    (htrans : ∀ a b c, P a → P b → P c → r a b → r b c → r a c)
    (a : α) (hPa : P a) :
    ∀ l : List α, (∀ x ∈ l, P x) → List.Sorted r l →
      List.Sorted r (List.orderedInsert r a l) := by
  intro l
  induction l with
  | nil =>
    intro _ _
    simp only [List.orderedInsert_nil]
    exact List.sorted_singleton a
  | cons b bs ih =>
    intro hP hsort
    rw [List.orderedInsert]
    obtain ⟨hb, hbs⟩ := List.sorted_cons.mp hsort
    by_cases hab : r a b
    · rw [if_pos hab, List.sorted_cons]
      refine ⟨?_, hsort⟩
      intro x hx
      rcases List.mem_cons.mp hx with rfl | hx
      · exact hab
      · exact htrans a b x hPa (hP b (by simp))
          (hP x (List.mem_cons_of_mem _ hx)) hab (hb x hx)
    · rw [if_neg hab, List.sorted_cons]
      refine ⟨?_, ih (fun x hx => hP x (List.mem_cons_of_mem _ hx)) hbs⟩
      intro x hx
      rcases (List.mem_orderedInsert r).mp hx with rfl | hx
      · exact (htotal x b).resolve_left hab
      · exact hb x hx

/-- `List.insertionSort` sorts under the same restricted hypotheses. -/
theorem sorted_insertionSort_restricted {α : Type} (r : α → α → Prop)
    [DecidableRel r] (P : α → Prop)
    (htotal : ∀ a b, r a b ∨ r b a)
    (htrans : ∀ a b c, P a → P b → P c → r a b → r b c → r a c) :
    ∀ l : List α, (∀ x ∈ l, P x) →
      List.Sorted r (List.insertionSort r l) := by
  intro l
  induction l with
  | nil =>
    intro _
    exact List.sorted_nil
  | cons b bs ih =>
    intro hP
    rw [List.insertionSort]
    refine sorted_orderedInsert_restricted r P htotal htrans b
      (hP b (by simp)) (List.insertionSort r bs) ?_
      (ih (fun x hx => hP x (List.mem_cons_of_mem _ hx)))
    intro x hx
    have hxm : x ∈ bs := (List.perm_insertionSort r bs).mem_iff.mp hx
    exact hP x (List.mem_cons_of_mem _ hxm)

/-- Patients named Bob, alice, Charlie in intake order. -/
def bobState : HMS :=
  ⟨[⟨1, "Bob", 30, "m", "1", "x", 0⟩, ⟨2, "alice", 28, "f", "2", "y", 0⟩,
    ⟨3, "Charlie", 35, "m", "3", "z", 0⟩], [], [], [], 4, 1, 1, 1⟩

/-- C7: with at least two patients (whose names, as all reachable strings,
contain no NUL character), `sortPatientsByName` replaces the patient table
with a permutation of itself that is sorted under the case-insensitive
comparator (ties may land in either order — any sorted permutation
satisfies this statement); with fewer than two patients it reports
insufficient input and changes nothing.  On patients named Bob, alice,
Charlie the result order is alice, Bob, Charlie. -/
theorem C7_sort_patients (s : HMS) :
    (2 ≤ s.patients.length →
      (∀ p ∈ s.patients, nulFree p.name.data) →
      (sortPatientsByName s).1.patients.Perm s.patients ∧
      List.Sorted patientLe (sortPatientsByName s).1.patients) ∧
    (s.patients.length < 2 → sortPatientsByName s = (s, .insufficient)) ∧
    ((sortPatientsByName bobState).1.patients.map Patient.name =
      ["alice", "Bob", "Charlie"]) := by
  refine ⟨fun h2 hnames => ?_, fun hlt => ?_, by decide⟩
  · rw [sortPatientsByName, if_neg (by omega)]
    exact ⟨List.perm_insertionSort patientLe s.patients,
      sorted_insertionSort_restricted patientLe
        (fun p => nulFree p.name.data) patientLe_total
        (fun a b c ha hb hc => patientLe_trans ha hb hc)
        s.patients hnames⟩
  · rw [sortPatientsByName, if_pos hlt]

theorem C7_sort_patients_witness :
    (sortPatientsByName bobState).1.patients.Perm bobState.patients ∧
    List.Sorted patientLe (sortPatientsByName bobState).1.patients ∧
    sortPatientsByName initHMS = (initHMS, .insufficient) := by
  have hb := C7_sort_patients bobState
  have h0 := C7_sort_patients initHMS
  have hh := hb.1 (by decide) (by decide)
  exact ⟨hh.1, hh.2, h0.2.1 (by decide)⟩
